import Mathlib

/-!
Verification development for the dyntapy traffic-assignment code base.

Shallow embedding of the parts of the source relevant to the frozen claims:
* `src/datastructures/csr.py` — the CSR sparse-matrix construction
  (`__csr_sort`, `__csr_format`, `csr_prep`) and the `CSRMatrix` accessors
  (`get_nnz`, `get_row`);
* `src/dtapy/core/assignment_methods/i_ltm_aon.py` — the assignment driver
  loop and its convergence test `is_converged`;
* `src/dtapy/core/network_loading/link_models/i_ltm.py` — the executable
  slice of the I-LTM network-loading engine (`i_ltm`, `__load_origin_flows`,
  `calc_sending_flows`, `calc_turning_flows`);
* `src/dtapy/demand.py` — `_build_demand` (insertion-time validation and
  time-step tagging of static demand snapshots);
* `src/dtapy/core/route_choice/dynamic_dijkstra.py` — `dijkstra`.

Machine floats of the source are modelled by `ℚ` (with `WithTop ℚ` where the
source uses `np.inf` as a sentinel); numpy arrays by `List`s or by functions
out of `ℕ`.  Python slicing `l[a:b]` (which clamps and never faults) is
`pySlice`; scalar indexing `l[i]` (which faults when out of bounds) is
modelled with `Option` where the faulting behaviour matters.
-/

namespace Dyntapy

/-- A nonzero entry of a sparse matrix: one row of the `index_array`
(`row`, `col`) of `csr.py` together with the corresponding entry of
`values`. -/
structure Triple (α : Type) where
  row : ℕ
  col : ℕ
  val : α
deriving Repr, DecidableEq

/-- Python slice `l[a:b]` for `0 ≤ a ≤ b`: clamps to the list, never faults. -/
def pySlice {α : Type} (l : List α) (a b : ℕ) : List α :=
  (l.take b).drop a

/-- Embedding of the `CSRMatrix` jitclass of `csr.py` (fields `_values`,
`_col_index`, `_row_index`). -/
structure CSRMatrix (α : Type) where
  values : List α
  col_index : List ℕ
  row_index : List ℕ
deriving Repr, DecidableEq

/-- Embedding of `CSRMatrix.get_nnz` (csr.py lines 89-93):
`self._col_index[self._row_index[row] : self._row_index[row + 1]]`.
The two scalar reads of `_row_index` fault when out of bounds, hence the
`Option`; the slice itself never faults. -/
def CSRMatrix.get_nnz? {α : Type} (m : CSRMatrix α) (row : ℕ) : Option (List ℕ) := do
  let s ← m.row_index.get? row
  let e ← m.row_index.get? (row + 1)
  pure (pySlice m.col_index s e)

/-- Embedding of `CSRMatrix.get_row` (csr.py lines 95-98):
`self._values[self._row_index[row] : self._row_index[row + 1]]`. -/
def CSRMatrix.get_row? {α : Type} (m : CSRMatrix α) (row : ℕ) : Option (List α) := do
  let s ← m.row_index.get? row
  let e ← m.row_index.get? (row + 1)
  pure (pySlice m.values s e)

/-- Total versions of the accessors (used where the source is known to stay
in bounds). -/
def CSRMatrix.get_nnz {α : Type} (m : CSRMatrix α) (row : ℕ) : List ℕ :=
  pySlice m.col_index (m.row_index.getD row 0) (m.row_index.getD (row + 1) 0)

/-- Total version of `get_row`, see `CSRMatrix.get_nnz`. -/
def CSRMatrix.get_row {α : Type} (m : CSRMatrix α) (row : ℕ) : List α :=
  pySlice m.values (m.row_index.getD row 0) (m.row_index.getD (row + 1) 0)

/-- The order by which `__csr_sort` (csr.py lines 20-57) orders the triples:
its heap key is `i * (number_of_columns + 1) + j`, which for column indices
`j ≤ number_of_columns` (guaranteed by the bounds check of `csr_prep` before
sorting) orders by row, ties broken by column. -/
def tripleLE {α : Type} (a b : Triple α) : Prop :=
  a.row < b.row ∨ (a.row = b.row ∧ a.col ≤ b.col)

instance {α : Type} : DecidableRel (@tripleLE α) := fun a b => by
  unfold tripleLE; infer_instance

instance {α : Type} : IsTotal (Triple α) tripleLE where
  total a b := by
    unfold tripleLE
    rcases Nat.lt_trichotomy a.row b.row with h | h | h
    · exact Or.inl (Or.inl h)
    · rcases Nat.le_total a.col b.col with hc | hc
      · exact Or.inl (Or.inr ⟨h, hc⟩)
      · exact Or.inr (Or.inr ⟨h.symm, hc⟩)
    · exact Or.inr (Or.inl h)

instance {α : Type} : IsTrans (Triple α) tripleLE where
  trans a b c hab hbc := by
    unfold tripleLE at *
    rcases hab with h1 | ⟨h1, h1c⟩ <;> rcases hbc with h2 | ⟨h2, h2c⟩
    · exact Or.inl (h1.trans h2)
    · exact Or.inl (h2 ▸ h1)
    · exact Or.inl (h1 ▸ h2)
    · exact Or.inr ⟨h1.trans h2, h1c.trans h2c⟩

/-- Embedding of `__csr_sort` (csr.py lines 20-57).  The source pushes every
triple onto a binary heap with key `i * (number_of_columns + 1) + j` and
tie-break `(i, j, original index)` and pops them in order, i.e. it performs a
stable sort by `(row, col)`; we embed it as a stable insertion sort by the
same order. -/
def csr_sort {α : Type} (l : List (Triple α)) : List (Triple α) :=
  List.insertionSort tripleLE l

/-- State of the construction loop of `__csr_format` (csr.py lines 139-177):
`col`/`row` are the output lists under construction, `rvc` is
`row_value_counter` and `pe` is `processed_edges`. -/
structure FmtState where
  col : List ℕ
  row : List ℕ
  rvc : ℕ
  pe : ℕ
deriving Repr, DecidableEq

/-- One iteration `i` of the outer loop of `__csr_format` (csr.py lines
158-175), non-sentinel path.  The inner `for edge in index_array[processed_edges:]`
appends the columns of the leading run of edges whose row equals `i`; when it
meets an edge of a different row it appends `row_value_counter` to `row`,
advances `processed_edges` and breaks; when it instead runs off the end of
the array there is no `for`-`else`, so nothing is appended to `row` and
`processed_edges` is not advanced. -/
def fmtStep {α : Type} (arr : List (Triple α)) (i : ℕ) (s : FmtState) : FmtState :=
  let rest := arr.drop s.pe
  let ms := rest.takeWhile (fun e => e.row == i)
  let col' := s.col ++ ms.map Triple.col
  let rvc' := s.rvc + ms.length
  if ms.length < rest.length then
    ⟨col', s.row ++ [rvc'], rvc', s.pe + ms.length⟩
  else
    ⟨col', s.row, rvc', s.pe⟩

/-- The state after the first `i` iterations of the outer loop of
`__csr_format` (initial state: empty `col`, `row = [0]`, counters zero). -/
def fmtFold {α : Type} (arr : List (Triple α)) (i : ℕ) : FmtState :=
  (List.range i).foldl (fun s k => fmtStep arr k s) ⟨[], [0], 0, 0⟩

/-- Embedding of `__csr_format` (csr.py lines 139-177).  The source marks the
input as empty when `len(index_array) == 1` (`empty_csr`), because the empty
sparse matrix is represented by the length-1 object `np.array([[]])` — this
branch therefore also swallows a genuine single-entry input.  On the sentinel
path every iteration of `for i in np.arange(number_of_rows + 1)` appends the
(never incremented) `row_value_counter` to `row`. -/
def csr_format {α : Type} (arr : List (Triple α)) (number_of_rows : ℕ) :
    List ℕ × List ℕ :=
  if arr.length == 1 then
    ([], 0 :: List.replicate (number_of_rows + 1) 0)
  else
    let s := fmtFold arr (number_of_rows + 1)
    (s.col, s.row)

/-- Largest row index occurring in the triple list (`np.max(index_array[:, 0])`). -/
def maxRowIdx {α : Type} (l : List (Triple α)) : ℕ :=
  (l.map Triple.row).foldl max 0

/-- Largest column index occurring in the triple list (`np.max(index_array[:, 1])`). -/
def maxColIdx {α : Type} (l : List (Triple α)) : ℕ :=
  (l.map Triple.col).foldl max 0

/-- Embedding of `csr_prep` (csr.py lines 116-136).  `np.max` of an empty
array raises, hence the first error branch; the second is the explicit bounds
check of the source (`shape` components are positive in every use, so the
`uint` wraparound of `shape - 1` at `shape = 0` is not modelled).  With
`unsorted = true` (the default, used by all callers) the triples are sorted
by `__csr_sort` before `__csr_format` runs. -/
def csr_prep {α : Type} (arr : List (Triple α)) (shape : ℕ × ℕ) (unsorted : Bool) :
    Except String (List α × List ℕ × List ℕ) :=
  if arr.isEmpty then
    Except.error "ValueError: zero-size array to reduction operation maximum"
  else if shape.2 - 1 < maxColIdx arr ∨ shape.1 - 1 < maxRowIdx arr then
    Except.error "ValueError: dimensions are smaller than respective cols and rows in index array"
  else
    let sorted := if unsorted then csr_sort arr else arr
    let cr := csr_format sorted shape.1
    Except.ok (sorted.map Triple.val, cr.1, cr.2)

/-- Number of triples with row index strictly below `k` (the value
`row_index[k]` takes in a correctly built CSR structure). -/
def cntRow {α : Type} (arr : List (Triple α)) (k : ℕ) : ℕ :=
  (arr.filter (fun e => decide (e.row < k))).length

/-! ## Assignment driver (`i_ltm_aon.py`) -/

/-- A dense `tot_time_steps × tot_links` float array (link flows, costs). -/
def Mat : Type := List (List ℚ)

instance : DecidableEq Mat := by
  unfold Mat; infer_instance

/-- Elementwise `new_flows - old_flows` of two same-shaped arrays. -/
def matSub (new old : Mat) : Mat :=
  List.zipWith (fun rn ro => List.zipWith (fun a b => a - b) rn ro) new old

/-- Elementwise `np.abs`. -/
def matAbs (a : Mat) : Mat :=
  a.map (fun r => r.map (fun x => |x|))

/-- Embedding of `np.sum` over a 2-d array. -/
def npSum (a : Mat) : ℚ :=
  (a.map (fun r => r.sum)).sum

/-- Embedding of `is_converged` (i_ltm_aon.py lines 84-102), `method = 'all'`
branch (the only implemented one, and the one the driver uses):
`result_gap = np.sum(np.abs(new_flows - old_flows)) / np.sum(old_flows)` and
the function returns `(result_gap < target_gap, result_gap)`.
`target_gap` defaults to `parameters.assignment.gap` (the settings module is
not part of the sources), so it stays a parameter here. -/
def is_converged (old_flows new_flows : Mat) (target_gap : ℚ) : Bool × ℚ :=
  let result_gap := npSum (matAbs (matSub new_flows old_flows)) / npSum old_flows
  (decide (result_gap < target_gap), result_gap)

/-- Gap formula as the spec states it: "gap = Σ|new_flow − old_flow| /
Σ old_flow", reading both arrays as flat sequences of cells. -/
def specGap (old_flows new_flows : Mat) : ℚ :=
  ((old_flows.flatten.zip new_flows.flatten).map (fun p => |p.2 - p.1|)).sum /
    old_flows.flatten.sum

/-- One pass of the driver loop of `i_ltm_aon` (i_ltm_aon.py lines 42-67)
followed by the loop test `k < 1001 and not converged`.

The per-iteration network-loading pipeline (`i_ltm`; `cvn_to_travel_times`;
`cvn_to_flows`; route-choice updates) is abstracted as `pipeline k =
(new_flows, costs)`, the flows and costs the pipeline yields on iteration
`k`: the `i_ltm` module of this snapshot is not executable (see `i_ltm`
below), so only the driver's own control flow is embedded.  `fuel` is the
number of loop passes the bound `k < 1001` still allows after the current
one.  The result is `(flows, costs, convergence)` where `flows`/`costs` are
the values the final `return flows, costs` of the source yields (the final
`flows = cvn_to_flows(iltm_state.cvn_down)` recomputes the last iteration's
`new_flows`; the state does not change after the loop) and `convergence` is
the driver's internal gap list (initialised to `[np.inf]`, one gap appended
per iteration with `k > 1`). -/
def driverLoop (pipeline : ℕ → Mat × Mat) (target_gap : ℚ) :
    ℕ → ℕ → Mat → List (WithTop ℚ) → Mat × Mat × List (WithTop ℚ)
  | fuel, k, old_flows, convergence =>
    let nc := pipeline k
    let step : Bool × List (WithTop ℚ) :=
      if 1 < k then
        let r := is_converged old_flows nc.1 target_gap
        (r.1, convergence ++ [(r.2 : WithTop ℚ)])
      else
        (false, convergence)
    match fuel with
    | 0 => (nc.1, nc.2, step.2)
    | fuel' + 1 =>
      if step.1 then (nc.1, nc.2, step.2)
      else driverLoop pipeline target_gap fuel' (k + 1) nc.1 step.2

/-- Embedding of `i_ltm_aon` (i_ltm_aon.py lines 31-80): runs the driver
loop from `k = 1` with `old_flows` a zero `tot_time_steps × tot_links` array
and `convergence = [np.inf]`, and returns exactly what the source's
`return flows, costs` returns.  The loop bound `while k < 1001` allows
iterations `k = 1, …, 1000`, i.e. 999 passes after the first. -/
def i_ltm_aon (pipeline : ℕ → Mat × Mat) (target_gap : ℚ)
    (tot_time_steps tot_links : ℕ) : Mat × Mat :=
  let old_flows : Mat := List.replicate tot_time_steps (List.replicate tot_links 0)
  let r := driverLoop pipeline target_gap 999 1 old_flows [⊤]
  (r.1, r.2.1)

/-- The convergence history the driver accumulates internally (the
`convergence` list, lines 33-34 and 53, converted to `convergence_arr` at
lines 77-79 of i_ltm_aon.py).  The source computes it but does not return
it. -/
def i_ltm_aon_history (pipeline : ℕ → Mat × Mat) (target_gap : ℚ)
    (tot_time_steps tot_links : ℕ) : List (WithTop ℚ) :=
  let old_flows : Mat := List.replicate tot_time_steps (List.replicate tot_links 0)
  (driverLoop pipeline target_gap 999 1 old_flows [⊤]).2.2

/-! ## Network loading engine (`i_ltm.py`) -/

/-- Embedding of the effect of `__load_origin_flows` (i_ltm.py lines
133-166).  For each origin of the current demand with
`nodes_2_update[t, origin]` set, the source runs
`for index, connector in np.ndenumerate(out_links): tmp_sending_flow[0, :] =
cvn_up[t - 1, connector, :]` — but `out_links` is the out-links CSR jitclass
object, so `np.ndenumerate` yields that object itself as `connector`, and
using it as an array index raises.  No cumulative vehicle number is written
before that point, so the function either raises (some flagged origin) or
does nothing observable (no flagged origin). -/
def load_origin_flows (t : ℕ) (origins : List ℕ) (nodes_2_update : ℕ → ℕ → Bool) :
    Except String Unit :=
  if origins.any (fun origin => nodes_2_update t origin) then
    Except.error "IndexError: np.ndenumerate(out_links) yields the CSR object, which is not a valid index into cvn_up"
  else
    Except.ok ()

/-- Embedding of the executable slice of `i_ltm` (i_ltm.py lines 33-131).

The function aborts with an error as soon as origin demand is actually
loaded (see `load_origin_flows`); on every other path it leaves the I-LTM
state untouched, because the node-update loop `while it < max_it_iltm and
cur_nodes_2_update > 0` (line 105) is dead — the source sets
`max_it_iltm = 0` at line 80 and never reassigns it — and that dead loop is
the only place `cvn_up`/`cvn_down`/`con_up`/`con_down` could otherwise be
written.  (The loop body could not run anyway: the calls to
`calc_sending_flows`/`calc_receiving_flows` pass one argument more than the
callees accept, and the module itself fails to parse: `update_cvns_and_delta_n`,
lines 269-273, is untranslated MATLAB.)  Arguments: `nodes_2_update` is read
both as `nodes_2_update[:, t]` (line 86, first index a node) and as
`nodes_2_update[t, origin]` (line 137, first index a time step) — the source
mixes the two conventions; the embedding applies the arguments exactly in
source order.  `demand_origins t` is `dynamic_demand.get_demand(t).origins`,
`is_loading` is `dynamic_demand.is_loading`.  Allocation-only statements of
the source are not modelled. -/
def i_ltm (tot_time_steps tot_nodes : ℕ) (nodes_2_update : ℕ → ℕ → Bool)
    (is_loading : ℕ → Bool) (demand_origins : ℕ → List ℕ) : Except String Unit :=
  (List.range' 1 (tot_time_steps - 1)).foldlM
    (fun _ t =>
      if (List.range tot_nodes).any (fun node => nodes_2_update node t) then
        if is_loading t then
          load_origin_flows t (demand_origins t) nodes_2_update
        else
          Except.ok ()
      else
        Except.ok ())
    ()

/-- Embedding of the per-link sending-flow row of `calc_sending_flows`
(i_ltm.py lines 169-183), for one incoming link `link` at time step `t`.
`sf_init` is `sending_flow_init[link]`; when it is false the row keeps its
stale contents `prev` (line 174 is skipped).  Line 174 reads
`cvn_up[max(0, t + vind[link]), link, :] * 1 - vrt[link] - cvn_down[t - 1, link, :]`
— the `* 1 - vrt[link]` binds as `(cvn_up * 1) - vrt`, and is embedded with
that precedence.  Negative entries are floored to zero at line 181. -/
def calc_sending_flows_row (cvn_up cvn_down : ℕ → ℕ → ℕ → ℚ) (vind : ℤ) (vrt : ℚ)
    (t link : ℕ) (sf_init : Bool) (prev : ℕ → ℚ) : ℕ → ℚ :=
  fun d =>
    let s0 : ℚ :=
      if sf_init then
        cvn_up (max 0 ((t : ℤ) + vind)).toNat link d * 1 - vrt - cvn_down (t - 1) link d
          + (if vind < -1 then vrt * cvn_up (max 0 ((t : ℤ) + vind + 1)).toNat link d else 0)
      else
        prev d
    let s1 := s0 + (if vind = -1 then vrt * cvn_up t link d else 0)
    max 0 s1

/-- Embedding of the total sending flow of one incoming link
(i_ltm.py line 182): `tot_sending_flow[_id] = min(cap[link], np.sum(sending_flow[_id, :]))`,
summing the (floored) per-destination row over the `tot_destinations`
destinations.  Note the cap is `cap[link]`, not `cap[link] * step_size`
(`step_size` is not even a parameter of the source function). -/
def calc_sending_flows_tot (cap : ℚ) (tot_destinations : ℕ) (row : ℕ → ℚ) : ℚ :=
  min cap ((List.range tot_destinations).map row).sum

/-- Embedding of `calc_turning_flows` (i_ltm.py lines 206-234).  Returns the
pair (local turning fractions, local turning flows) after the call.  When
the node has a single outgoing link the source executes
`local_turning_fractions[:, 1] = 1`: it writes column index 1 of every row
and leaves column 0 (the slot of the unique outgoing link) untouched.
Otherwise it accumulates, for every turn, `np.sum(local_sending_flow[in_link, :]
* turning_fractions[t - 1, turn, :])` into `local_turning_flows[in_link, out_link]`,
summing over the `tot_destinations` destinations. -/
def calc_turning_flows (tot_out_links : ℕ) (local_turning_fractions : ℕ → ℕ → ℚ)
    (turn_in_links turn_out_links turns : List ℕ) (local_sending_flow : ℕ → ℕ → ℚ)
    (local_turning_flows : ℕ → ℕ → ℚ) (turning_fractions : ℕ → ℕ → ℕ → ℚ)
    (t tot_destinations : ℕ) : (ℕ → ℕ → ℚ) × (ℕ → ℕ → ℚ) :=
  if tot_out_links = 1 then
    (fun i j => if j = 1 then 1 else local_turning_fractions i j, local_turning_flows)
  else
    (local_turning_fractions,
      (turn_in_links.zip (turn_out_links.zip turns)).foldl
        (fun acc p =>
          fun i j =>
            if i = p.1 ∧ j = p.2.1 then
              acc i j + ((List.range tot_destinations).map
                (fun d => local_sending_flow p.1 d * turning_fractions (t - 1) p.2.2 d)).sum
            else
              acc i j)
        local_turning_flows)

/-! ## Demand construction (`demand.py`) -/

/-- Embedding of the `SimulationTime` data (fields `start`, `end`,
`step_size` as used by `_build_demand`; `end` is a reserved word in Lean and
becomes `stop`). -/
structure SimulationTime where
  start : ℚ
  stop : ℚ
  step_size : ℚ
deriving Repr, DecidableEq

/-- Embedding of `np.arange(start, stop, step)` for positive rational step:
the values `start + k * step` for `0 ≤ k < ⌈(stop - start) / step⌉`. -/
def np_arange (start stop step : ℚ) : List ℚ :=
  (List.range (⌈(stop - start) / step⌉).toNat).map (fun k => start + k * step)

/-- Index tracking for `np.argmin`: first index of the minimum. -/
def argmin_go : List ℚ → ℕ → ℕ → ℚ → ℕ
  | [], _, best_idx, _ => best_idx
  | a :: rest, i, best_idx, best_val =>
    if a < best_val then argmin_go rest (i + 1) i a
    else argmin_go rest (i + 1) best_idx best_val

/-- Embedding of `np.argmin` on a 1-d array: index of its first minimal
entry (0 on the empty array, where numpy raises — not reached here). -/
def np_argmin : List ℚ → ℕ
  | [] => 0
  | a :: rest => argmin_go rest 1 0 a

/-- Embedding of the insertion-time validation of `_build_demand`
(demand.py line 219): `np.all(insertion_time[1:] - insertion_time[:-1] >
simulation_time.step_size)` — consecutive differences must be strictly
greater than the step size. -/
def insertion_times_ok (insertion_time : List ℚ) (step_size : ℚ) : Bool :=
  (List.zipWith (fun a b => decide (step_size < b - a)) insertion_time insertion_time.tail).all id

/-- Embedding of the tag computation of `_build_demand` (demand.py lines
223-224): `time = np.arange(start, end, step)` followed by
`loading_time_steps = [(np.abs(insertion_time - time)).argmin() for
insertion_time in time]`.  The comprehension variable `insertion_time`
shadows the function argument of the same name and iterates over `time`
itself, so the list is the argmin of `|t_i - time|` for every simulation
time point `t_i` — the `insertion_time` argument is not consulted. -/
def loading_time_steps (st : SimulationTime) : List ℕ :=
  let time := np_arange st.start st.stop st.step_size
  time.map (fun x => np_argmin (time.map (fun tt => |x - tt|)))

/-- Embedding of `_build_demand` (demand.py lines 204-249), restricted to
the data the claims are about: after validating the insertion times it tags
the static demand snapshots with `internal_time` values taken from
`zip(loading_time_steps, demand_data, …)` (line 237), i.e. snapshot `k`
receives the `k`-th entry of `loading_time_steps` (the zip truncates to the
shorter list).  `demand_count` is `len(demand_data)`.  The returned list
holds the `internal_time` tag of each constructed `StaticDemand`, in
order. -/
def build_demand (insertion_time : List ℚ) (demand_count : ℕ)
    (simulation_time : SimulationTime) : Except String (List ℕ) :=
  if ¬ insertion_times_ok insertion_time simulation_time.step_size then
    Except.error "ValueError: insertion times are assumed to be monotonously increasing. The minimum difference between two insertions is the internal simulation time step"
  else
    Except.ok ((loading_time_steps simulation_time).take demand_count)

/-- The tag the claim prescribes for an insertion time `x`: the index of the
simulation time step at which that demand loads, i.e. the time point of
`np.arange(start, end, step)` nearest to `x` (what the comprehension at
demand.py line 224 evidently intended to compute for each entry of the
`insertion_time` argument). -/
def insertion_step_index (st : SimulationTime) (x : ℚ) : ℕ :=
  np_argmin ((np_arange st.start st.stop st.step_size).map (fun tt => |x - tt|))

/-- Acceptance predicate as the claim states it: consecutive insertion-time
differences of at least one simulation step. -/
def spec_insertion_ok (insertion_time : List ℚ) (step_size : ℚ) : Bool :=
  (List.zipWith (fun a b => decide (step_size ≤ b - a)) insertion_time insertion_time.tail).all id

/-! ## Time-dependent Dijkstra (`dynamic_dijkstra.py`) -/

/-- Lexicographic strict order on heap items `(distance, node)`, matching the
ordering of the float tuples `(d, float(j))` that `heapq` uses. -/
def heapLT (a b : ℚ × ℕ) : Prop :=
  a.1 < b.1 ∨ (a.1 = b.1 ∧ a.2 < b.2)

instance : DecidableRel heapLT := fun a b => by
  unfold heapLT; infer_instance

/-- Minimum of a heap: the item `heappop` returns. -/
def heapMin : List (ℚ × ℕ) → Option (ℚ × ℕ)
  | [] => none
  | a :: rest =>
    match heapMin rest with
    | none => some a
    | some b => some (if heapLT b a then b else a)

/-- Remove the first occurrence of `x` from the list. -/
def removeFirst (x : ℚ × ℕ) : List (ℚ × ℕ) → List (ℚ × ℕ)
  | [] => []
  | a :: rest => if a = x then rest else a :: removeFirst x rest

/-- Embedding of `heappop`: returns the minimal item and the remaining heap
(items with equal keys are indistinguishable tuples, so popping the first
minimal occurrence is faithful). -/
def heapPop (h : List (ℚ × ℕ)) : Option ((ℚ × ℕ) × List (ℚ × ℕ)) :=
  match heapMin h with
  | none => none
  | some m => some (m, removeFirst m h)

/-- Edge relaxation over one settled node `i` (dynamic_dijkstra.py lines
43-48): for every `(out_link, j)` of the forward star of `i`, compute
`ij_dist = distances[i] + costs[out_link]` and push `(ij_dist, j)` whenever
`seen[j] == np.inf or ij_dist < seen[j]`. -/
def relaxEdges (costs : ℕ → ℚ) (d : ℚ) :
    List (ℕ × ℕ) → List (WithTop ℚ) → List (ℚ × ℕ) →
      List (WithTop ℚ) × List (ℚ × ℕ)
  | [], seen, heap => (seen, heap)
  | (out_link, j) :: rest, seen, heap =>
    let ij_dist := d + costs out_link
    if seen.getD j ⊤ = ⊤ ∨ (ij_dist : WithTop ℚ) < seen.getD j ⊤ then
      relaxEdges costs d rest (seen.set j (ij_dist : WithTop ℚ)) (heap ++ [(ij_dist, j)])
    else
      relaxEdges costs d rest seen heap

/-- The main loop of `dijkstra` (dynamic_dijkstra.py lines 36-48), with
explicit fuel.  Each pass pops the heap minimum; a node whose distance is
already settled (`distances[i] != np.inf`) is skipped, otherwise its
distance is fixed at the popped key and its outgoing links are relaxed. -/
def dijkstraLoop (costs : ℕ → ℚ) (out_links : CSRMatrix ℕ) :
    ℕ → List (WithTop ℚ) → List (WithTop ℚ) → List (ℚ × ℕ) → List (WithTop ℚ)
  | 0, distances, _, _ => distances
  | fuel + 1, distances, seen, heap =>
    match heapPop heap with
    | none => distances
    | some (item, heap') =>
      let d := item.1
      let i := item.2
      if distances.getD i ⊤ ≠ ⊤ then
        dijkstraLoop costs out_links fuel distances seen heap'
      else
        let distances' := distances.set i (d : WithTop ℚ)
        let sr := relaxEdges costs d ((out_links.get_nnz i).zip (out_links.get_row i)) seen heap'
        dijkstraLoop costs out_links fuel distances' sr.1 sr.2

/-- Embedding of `dijkstra` (dynamic_dijkstra.py lines 13-49).  Line 30
rebinds the local name: `distances = np.full(distances.size, np.inf, ...)`,
so the array the caller passed is read only for its size and is never
written; the result is delivered through the return value alone.  The
returned pair is `(result, caller's array after the call)`.  The fuel
`2 + |col_index|` dominates the number of loop passes (each pass pops one
item; one item is pushed initially and each column entry of the forward-star
CSR is relaxed at most once, since a node settles at most once), so the
embedded loop always terminates by heap exhaustion exactly as the source
does. -/
def dijkstra (costs : ℕ → ℚ) (out_links : CSRMatrix ℕ) (source : ℕ)
    (distances : List (WithTop ℚ)) : List (WithTop ℚ) × List (WithTop ℚ) :=
  let n := distances.length
  let fresh : List (WithTop ℚ) := List.replicate n ⊤
  let seen : List (WithTop ℚ) := fresh.set source (0 : ℚ)
  let result := dijkstraLoop costs out_links (out_links.col_index.length + 2)
    fresh seen [((0 : ℚ), source)]
  (result, distances)

/-! ## Helper lemmas -/

/-- Sum of the per-cell absolute differences of one row pair, zip form versus
zipWith form. -/
theorem rowAbsSum_eq (ro rn : List ℚ) :
    ((ro.zip rn).map (fun p => |p.2 - p.1|)).sum =
      ((List.zipWith (fun a b => a - b) rn ro).map (fun x => |x|)).sum := by
  induction ro generalizing rn with
  | nil => cases rn <;> simp
  | cons a ro ih =>
    cases rn with
    | nil => simp
    | cons b rn => simp [ih]

/-- Under equal shapes, the flat cellwise sum of absolute differences equals
the nested sum the code computes. -/
theorem flatAbsSum_eq (old_flows new_flows : Mat)
    (h : old_flows.map List.length = new_flows.map List.length) :
    ((old_flows.flatten.zip new_flows.flatten).map (fun p => |p.2 - p.1|)).sum =
      npSum (matAbs (matSub new_flows old_flows)) := by
  induction old_flows generalizing new_flows with
  | nil =>
    have : new_flows = [] := by
      cases new_flows with
      | nil => rfl
      | cons s rest => simp at h
    subst this; simp [npSum, matAbs, matSub]
  | cons r rest ih =>
    cases new_flows with
    | nil => simp at h
    | cons s rest' =>
      simp only [List.map_cons, List.cons.injEq] at h
      have hz : (r ++ rest.flatten).zip (s ++ rest'.flatten) =
          r.zip s ++ rest.flatten.zip rest'.flatten := List.zip_append h.1
      simp only [List.flatten_cons, hz, List.map_append, List.sum_append,
        npSum, matAbs, matSub, List.zipWith_cons_cons, List.map_cons,
        List.sum_cons]
      rw [rowAbsSum_eq]
      have := ih rest' h.2
      simp only [npSum, matAbs, matSub] at this
      rw [this]

/-- The flattened sum equals the row-wise sum the code computes. -/
theorem npSum_eq_flatten_sum (a : Mat) : npSum a = a.flatten.sum := by
  simp [npSum, List.sum_flatten]

/-! ## Claim theorems -/

/-- C1: the claim says the network loading engine `i_ltm` produces, for every
network, demand and simulation time, cumulative vehicle numbers that are
non-decreasing in time.  The engine of this snapshot cannot produce
cumulative vehicle numbers at all: on any input that actually loads demand
(here: three time steps, an origin flagged in `nodes_2_update`, demand
loading at step 1) it aborts while indexing `cvn_up` with the out-links CSR
object, and on every other input it returns with the state untouched, its
node-update loop being dead (`max_it_iltm = 0`).  The `cvn_down` array is
never written on any path. -/
theorem i_ltm_aborts_on_loading_demand :
    i_ltm 3 2 (fun _ _ => true) (fun t => t == 1) (fun _ => [0]) =
      Except.error "IndexError: np.ndenumerate(out_links) yields the CSR object, which is not a valid index into cvn_up" := by
  rfl

/-- C2: the claim says building a CSR structure from any triple list whose
indices fit the shape and reading it back reproduces the per-row multisets.
It fails for a single-triple input: `__csr_format` treats any length-1
`index_array` as the empty sentinel `np.array([[]])` (`empty_csr =
len(index_array) == 1`), so `csr_prep` on the single triple `(0, 0, 5)` with
shape `(1, 1)` yields an empty column list and an all-zero row index, and
both `get_nnz` and `get_row` read back an empty row 0 instead of the input
pair `(0, 5)`. -/
theorem csr_prep_singleton_readback_empty :
    csr_prep [⟨0, 0, (5 : ℚ)⟩] (1, 1) true = Except.ok ([5], [], [0, 0, 0]) ∧
    CSRMatrix.get_nnz? ⟨[(5 : ℚ)], [], [0, 0, 0]⟩ 0 = some [] ∧
    CSRMatrix.get_row? ⟨[(5 : ℚ)], [], [0, 0, 0]⟩ 0 = some [] :=
  ⟨rfl, rfl, rfl⟩

/-- C3: the driver's convergence test computes
`gap = Σ|new_flow − old_flow| / Σ old_flow` over all cells and declares
convergence exactly when that gap is strictly below the target gap. -/
theorem is_converged_matches_spec (old_flows new_flows : Mat) (target_gap : ℚ)
    (h : old_flows.map List.length = new_flows.map List.length) :
    ((is_converged old_flows new_flows target_gap).1 = true ↔
      specGap old_flows new_flows < target_gap) ∧
    (is_converged old_flows new_flows target_gap).2 = specGap old_flows new_flows := by
  have hg : npSum (matAbs (matSub new_flows old_flows)) / npSum old_flows =
      specGap old_flows new_flows := by
    rw [specGap, ← flatAbsSum_eq old_flows new_flows h, npSum_eq_flatten_sum]
  constructor
  · simp [is_converged, hg]
  · simp [is_converged, hg]

/-- Witness for C3 at `old = [[1, 2]]`, `new = [[2, 4]]`, `target = 2`. -/
theorem is_converged_matches_spec_witness :
    ([[(1 : ℚ), 2]].map List.length = [[(2 : ℚ), 4]].map List.length) ∧
    (((is_converged [[(1 : ℚ), 2]] [[2, 4]] 2).1 = true ↔
        specGap [[(1 : ℚ), 2]] [[2, 4]] < 2) ∧
      (is_converged [[(1 : ℚ), 2]] [[2, 4]] 2).2 = specGap [[(1 : ℚ), 2]] [[2, 4]]) :=
  ⟨rfl, is_converged_matches_spec [[(1 : ℚ), 2]] [[2, 4]] 2 rfl⟩

/-- Convergence test value at equal one-cell flow matrices: the gap is 0 and
the target 1 is met. -/
theorem driver_conv_eq : is_converged [[(1 : ℚ)]] [[(1 : ℚ)]] 1 = (true, 0) := by
  simp [is_converged, matSub, matAbs, npSum]

/-- Convergence test value from `[[2]]` to `[[1]]`: the gap is 1/2 and the
target 1 is met. -/
theorem driver_conv_half : is_converged [[(2 : ℚ)]] [[(1 : ℚ)]] 1 = (true, 1 / 2) := by
  simp [is_converged, matSub, matAbs, npSum]
  norm_num

/-- Run of the driver loop under the constant pipeline: it stops on
iteration 2 with gap 0. -/
theorem driver_run_const (fuel : ℕ) (old_flows : Mat) (convergence : List (WithTop ℚ)) :
    driverLoop (fun _ => ([[(1 : ℚ)]], [[(1 : ℚ)]])) 1 (fuel + 2) 1 old_flows convergence =
      ([[(1 : ℚ)]], [[(1 : ℚ)]], convergence ++ [((0 : ℚ) : WithTop ℚ)]) := by
  rw [driverLoop]
  simp only [Nat.lt_irrefl, if_false]
  rw [driverLoop]
  simp [driver_conv_eq]

/-- Run of the driver loop under the pipeline that yields `[[2]]` first: it
stops on iteration 2 with gap 1/2 and the same final flows and costs. -/
theorem driver_run_jump (fuel : ℕ) (old_flows : Mat) (convergence : List (WithTop ℚ)) :
    driverLoop (fun k => if k = 1 then ([[(2 : ℚ)]], [[(1 : ℚ)]]) else ([[(1 : ℚ)]], [[(1 : ℚ)]]))
        1 (fuel + 2) 1 old_flows convergence =
      ([[(1 : ℚ)]], [[(1 : ℚ)]], convergence ++ [((1 / 2 : ℚ) : WithTop ℚ)]) := by
  rw [driverLoop]
  simp only [Nat.lt_irrefl, if_false, if_pos rfl]
  rw [driverLoop]
  simp [driver_conv_half, show ¬((2 : ℕ) = 1) by omega, show (1 : ℕ) < 2 by omega]

/-- C4: the claim says the value `i_ltm_aon` returns contains the final flow
matrix, the travel-time matrix and the full convergence-gap history.  The
source returns only `flows, costs` (i_ltm_aon.py line 80); the history
(`convergence`, converted to `convergence_arr` at lines 77-79) is computed
and discarded.  Two runs whose pipelines produce different internal gap
histories (`[∞, 0]` versus `[∞, 1/2]`) but the same final flows and costs
therefore return identical values: no component of the output records the
history.  (The function could not run at all in Python: importing it pulls
in the syntactically invalid `i_ltm` module, and the call at line 44 passes
seven arguments to the six-parameter `i_ltm`.) -/
theorem i_ltm_aon_output_lacks_history :
    i_ltm_aon (fun _ => ([[(1 : ℚ)]], [[(1 : ℚ)]])) 1 1 1 =
      i_ltm_aon (fun k => if k = 1 then ([[(2 : ℚ)]], [[(1 : ℚ)]]) else ([[(1 : ℚ)]], [[(1 : ℚ)]]))
        1 1 1 ∧
    i_ltm_aon_history (fun _ => ([[(1 : ℚ)]], [[(1 : ℚ)]])) 1 1 1 ≠
      i_ltm_aon_history
        (fun k => if k = 1 then ([[(2 : ℚ)]], [[(1 : ℚ)]]) else ([[(1 : ℚ)]], [[(1 : ℚ)]]))
        1 1 1 := by
  constructor
  · simp only [i_ltm_aon]
    rw [show (999 : ℕ) = 997 + 2 from rfl, driver_run_const, driver_run_jump]
  · simp only [i_ltm_aon_history]
    rw [show (999 : ℕ) = 997 + 2 from rfl, driver_run_const, driver_run_jump]
    simp

/-- C5: the claim says the total sending flow of an incoming link is capped
at link capacity × step size.  The source caps at `cap[link]` alone
(i_ltm.py line 182; `step_size` is not a parameter of `calc_sending_flows`).
With capacity 4, step size 1/4 and a per-destination sending flow of 2, the
code yields `min(4, 2) = 2`, while the claimed cap is
`min(4 · 1/4, 2) = 1`. -/
theorem calc_sending_flows_cap_without_step_size :
    calc_sending_flows_tot 4 1
        (calc_sending_flows_row (fun tt _ _ => if tt = 0 then 2 else 0) (fun _ _ _ => 0)
          (-1) 0 1 0 true (fun _ => 0)) = 2 ∧
    min ((4 : ℚ) * (1 / 4)) 2 = 1 := by
  constructor
  · rw [calc_sending_flows_tot, show List.range 1 = [0] from rfl]
    simp only [List.map_cons, List.map_nil, List.sum_cons, List.sum_nil, add_zero]
    rw [calc_sending_flows_row]
    norm_num
  · norm_num

/-- C6: the claim says that at a node with exactly one outgoing link the
turning fraction from every incoming link onto that link is set to 1.  The
source executes `local_turning_fractions[:, 1] = 1` (i_ltm.py line 227),
writing local column 1; the single outgoing link has local column 0, which
keeps its previous (uninitialised) contents — here 0, not 1. -/
theorem calc_turning_flows_merge_writes_wrong_column :
    (calc_turning_flows 1 (fun _ _ => 0) [] [] [] (fun _ _ => 0) (fun _ _ => 0)
        (fun _ _ _ => 0) 1 1).1 0 0 = 0 ∧
    (calc_turning_flows 1 (fun _ _ => 0) [] [] [] (fun _ _ => 0) (fun _ _ => 0)
        (fun _ _ _ => 0) 1 1).1 0 1 = 1 := by
  decide

/-- C7: the claim says snapshot `k` is tagged with the time-step index of
`insertion_time[k]`.  The comprehension at demand.py line 224 shadows the
`insertion_time` argument and iterates over the simulation time points, so
the tags are `0, 1, 2, …` regardless of the argument: with simulation time
`[0, 2)` at step 1 and a single snapshot inserted at time 1, the snapshot is
tagged 0, while the time-step index of insertion time 1 is 1. -/
theorem build_demand_tag_ignores_insertion_time :
    build_demand [1] 1 ⟨0, 2, 1⟩ = Except.ok [0] ∧
    insertion_step_index ⟨0, 2, 1⟩ 1 = 1 := by
  have ha : np_arange 0 2 1 = [0, 1] := by
    have hc : (⌈((2 : ℚ) - 0) / 1⌉).toNat = 2 := by norm_num; rfl
    unfold np_arange
    rw [hc, show List.range 2 = [0, 1] from rfl]
    norm_num
  constructor
  · have hok : insertion_times_ok [1] 1 = true := rfl
    simp only [build_demand, hok, Bool.not_true, loading_time_steps]
    rw [ha]
    norm_num [np_argmin, argmin_go]
  · simp only [insertion_step_index]
    rw [ha]
    norm_num [np_argmin, argmin_go]

/-- C8: the claim says every insertion-time sequence whose consecutive
differences are at least one simulation step is accepted.  The validation at
demand.py line 219 requires differences strictly greater than the step size,
so the sequence `[0, 1]` at step size 1 — spacing exactly one step, accepted
by the claim (and by the source's own error message) — is rejected. -/
theorem build_demand_rejects_exact_step_spacing :
    spec_insertion_ok [0, 1] 1 = true ∧
    build_demand [0, 1] 2 ⟨0, 2, 1⟩ =
      Except.error "ValueError: insertion times are assumed to be monotonously increasing. The minimum difference between two insertions is the internal simulation time step" := by
  constructor
  · norm_num [spec_insertion_ok]
  · have hbad : insertion_times_ok [0, 1] 1 = false := by
      norm_num [insertion_times_ok]
    simp [build_demand, hbad]

/-- C10: `dijkstra` rebinds its `distances` parameter to a fresh array
(dynamic_dijkstra.py line 30) and delivers its result only through the
return value: the caller-visible array is unchanged after the call, and the
result depends on the passed array only through its size. -/
theorem dijkstra_no_mutation (costs : ℕ → ℚ) (out_links : CSRMatrix ℕ) (source : ℕ)
    (d₁ d₂ : List (WithTop ℚ)) (h : d₁.length = d₂.length) :
    (dijkstra costs out_links source d₁).2 = d₁ ∧
    (dijkstra costs out_links source d₁).1 = (dijkstra costs out_links source d₂).1 := by
  refine ⟨rfl, ?_⟩
  simp only [dijkstra, h]

/-- Witness for C10: two length-2 caller arrays with different contents. -/
theorem dijkstra_no_mutation_witness :
    ([(5 : WithTop ℚ), 6].length = [(0 : WithTop ℚ), 0].length) ∧
    ((dijkstra (fun _ => 1) ⟨[1], [0], [0, 1, 1]⟩ 0 [(5 : WithTop ℚ), 6]).2 =
        [(5 : WithTop ℚ), 6] ∧
      (dijkstra (fun _ => 1) ⟨[1], [0], [0, 1, 1]⟩ 0 [(5 : WithTop ℚ), 6]).1 =
        (dijkstra (fun _ => 1) ⟨[1], [0], [0, 1, 1]⟩ 0 [(0 : WithTop ℚ), 0]).1) :=
  ⟨rfl, dijkstra_no_mutation (fun _ => 1) ⟨[1], [0], [0, 1, 1]⟩ 0
    [(5 : WithTop ℚ), 6] [(0 : WithTop ℚ), 0] rfl⟩

/-! ## Characterisation of `__csr_format` (towards C9) -/

/-- Python slicing with equal endpoints is empty. -/
theorem pySlice_self {α : Type} (l : List α) (a : ℕ) : pySlice l a a = [] := by
  unfold pySlice
  apply List.drop_eq_nil_of_le
  simp [List.length_take]

/-- Slicing commutes with `map`. -/
theorem pySlice_map {α β : Type} (f : α → β) (l : List α) (a b : ℕ) :
    pySlice (l.map f) a b = (pySlice l a b).map f := by
  simp [pySlice, List.map_take, List.map_drop]

/-- A fold of `max` dominates its seed. -/
theorem le_foldl_max : ∀ (l : List ℕ) (a : ℕ), a ≤ l.foldl max a
  | [], _ => le_refl _
  | b :: l, a => le_trans (le_max_left a b) (le_foldl_max l (max a b))

/-- A fold of `max` dominates every member. -/
theorem foldl_max_ge_mem : ∀ (l : List ℕ) (a x : ℕ), x ∈ l → x ≤ l.foldl max a
  | [], _, _, hx => absurd hx (List.not_mem_nil _)
  | b :: l, a, x, hx => by
    rcases List.mem_cons.mp hx with h | h
    · subst h
      exact le_trans (le_trans (le_max_right a x) (le_refl _)) (le_foldl_max l (max a x))
    · exact foldl_max_ge_mem l (max a b) x h

/-- A fold of `max` is the seed or a member. -/
theorem foldl_max_mem : ∀ (l : List ℕ) (a : ℕ), l.foldl max a = a ∨ l.foldl max a ∈ l
  | [], a => Or.inl rfl
  | b :: l, a => by
    rcases foldl_max_mem l (max a b) with h | h
    · rcases Nat.le_total a b with hab | hab
      · right
        rw [List.foldl_cons, h, max_eq_right hab]
        exact List.mem_cons_self b l
      · left
        rw [List.foldl_cons, h, max_eq_left hab]
    · right
      exact List.mem_cons_of_mem b h

/-- Every row index of a triple list is bounded by `maxRowIdx`. -/
theorem row_le_maxRowIdx {α : Type} {arr : List (Triple α)} {e : Triple α}
    (he : e ∈ arr) : e.row ≤ maxRowIdx arr :=
  foldl_max_ge_mem _ 0 e.row (List.mem_map_of_mem Triple.row he)

/-- For a nonempty triple list the maximal row index is attained. -/
theorem maxRowIdx_attained {α : Type} {arr : List (Triple α)} (h : arr ≠ []) :
    ∃ e ∈ arr, e.row = maxRowIdx arr := by
  rcases foldl_max_mem (arr.map Triple.row) 0 with h0 | hm
  · cases arr with
    | nil => exact absurd rfl h
    | cons a l =>
      refine ⟨a, List.mem_cons_self a l, ?_⟩
      have ha := row_le_maxRowIdx (List.mem_cons_self a l)
      have h0' : maxRowIdx (a :: l) = 0 := h0
      omega
  · rcases List.mem_map.mp hm with ⟨e, he, hrow⟩
    exact ⟨e, he, hrow⟩

/-- On a row-sorted list, dropping the entries of rows below `i` leaves
exactly the entries of rows at least `i`. -/
theorem sorted_drop_cnt {α : Type} (arr : List (Triple α)) (i : ℕ)
    (hs : arr.Pairwise (fun a b => a.row ≤ b.row)) :
    arr.drop (cntRow arr i) = arr.filter (fun e => decide (i ≤ e.row)) := by
  induction arr with
  | nil => simp [cntRow]
  | cons a l ih =>
    rcases List.pairwise_cons.mp hs with ⟨ha, hl⟩
    by_cases h : a.row < i
    · have h1 : cntRow (a :: l) i = cntRow l i + 1 := by
        simp [cntRow, List.filter_cons, h]
      have h2 : ¬ i ≤ a.row := by omega
      rw [h1, List.drop_succ_cons, List.filter_cons, ih hl]
      simp [h2]
    · have h0 : cntRow (a :: l) i = 0 := by
        have : ∀ e ∈ a :: l, ¬ (decide (e.row < i)) = true := by
          intro e he
          rcases List.mem_cons.mp he with rfl | hel
          · simp [h]
          · have := ha e hel
            simp only [decide_eq_true_eq]
            omega
        simp only [cntRow]
        rw [List.filter_eq_nil_iff.mpr this]
        rfl
      rw [h0, List.drop_zero, eq_comm]
      apply List.filter_eq_self.mpr
      intro e he
      rcases List.mem_cons.mp he with rfl | hel
      · simp only [decide_eq_true_eq]; omega
      · have := ha e hel
        simp only [decide_eq_true_eq]
        omega

/-- On a row-sorted list, taking the first `cntRow` entries yields exactly
the entries of rows below `i`. -/
theorem sorted_take_cnt {α : Type} (arr : List (Triple α)) (i : ℕ)
    (hs : arr.Pairwise (fun a b => a.row ≤ b.row)) :
    arr.take (cntRow arr i) = arr.filter (fun e => decide (e.row < i)) := by
  induction arr with
  | nil => simp [cntRow]
  | cons a l ih =>
    rcases List.pairwise_cons.mp hs with ⟨ha, hl⟩
    by_cases h : a.row < i
    · have h1 : cntRow (a :: l) i = cntRow l i + 1 := by
        simp [cntRow, List.filter_cons, h]
      rw [h1, List.take_succ_cons,
        List.filter_cons_of_pos (by simp only [decide_eq_true_eq]; omega), ih hl]
    · have h0 : cntRow (a :: l) i = 0 := by
        have : ∀ e ∈ a :: l, ¬ (decide (e.row < i)) = true := by
          intro e he
          rcases List.mem_cons.mp he with rfl | hel
          · simp [h]
          · have := ha e hel
            simp only [decide_eq_true_eq]
            omega
        simp only [cntRow]
        rw [List.filter_eq_nil_iff.mpr this]
        rfl
      have hnil : (a :: l).filter (fun e => decide (e.row < i)) = [] := by
        apply List.filter_eq_nil_iff.mpr
        intro e he
        rcases List.mem_cons.mp he with rfl | hel
        · simp [h]
        · have := ha e hel
          simp only [decide_eq_true_eq]
          omega
      rw [h0, List.take_zero, hnil]

/-- On a list all of whose entries have rows at least `i`, sorted by row,
`takeWhile (row == i)` is `filter (row == i)`. -/
theorem sorted_takeWhile_eq_filter {α : Type} (l : List (Triple α)) (i : ℕ)
    (hs : l.Pairwise (fun a b => a.row ≤ b.row)) (hge : ∀ e ∈ l, i ≤ e.row) :
    l.takeWhile (fun e => e.row == i) = l.filter (fun e => e.row == i) := by
  induction l with
  | nil => simp
  | cons a l ih =>
    rcases List.pairwise_cons.mp hs with ⟨ha, hl⟩
    by_cases h : a.row = i
    · rw [List.takeWhile_cons_of_pos (by simp [h]), List.filter_cons_of_pos (by simp [h])]
      rw [ih hl (fun e he => hge e (List.mem_cons_of_mem a he))]
    · have hgt : i < a.row := by
        have := hge a (List.mem_cons_self a l)
        omega
      rw [List.takeWhile_cons_of_neg (by simp [h]), List.filter_cons_of_neg (by simp [h])]
      rw [eq_comm]
      apply List.filter_eq_nil_iff.mpr
      intro e he
      have := ha e he
      simp only [beq_iff_eq]
      omega

/-- On a row-sorted list, the entries of rows below `i + 1` split into those
below `i` followed by those equal to `i`. -/
theorem sorted_filter_lt_succ {α : Type} (arr : List (Triple α)) (i : ℕ)
    (hs : arr.Pairwise (fun a b => a.row ≤ b.row)) :
    arr.filter (fun e => decide (e.row < i + 1)) =
      arr.filter (fun e => decide (e.row < i)) ++ arr.filter (fun e => e.row == i) := by
  induction arr with
  | nil => simp
  | cons a l ih =>
    rcases List.pairwise_cons.mp hs with ⟨ha, hl⟩
    rcases Nat.lt_trichotomy a.row i with h | h | h
    · rw [List.filter_cons_of_pos (by simp only [decide_eq_true_eq]; omega),
        List.filter_cons_of_pos (by simp only [decide_eq_true_eq]; omega),
        List.filter_cons_of_neg (by simp only [beq_iff_eq]; omega),
        List.cons_append, ih hl]
    · rw [List.filter_cons_of_pos (by simp only [decide_eq_true_eq]; omega),
        List.filter_cons_of_neg (by simp only [decide_eq_true_eq]; omega),
        List.filter_cons_of_pos (by simp only [beq_iff_eq]; omega)]
      have h1 : l.filter (fun e => decide (e.row < i)) = [] := by
        apply List.filter_eq_nil_iff.mpr
        intro e he
        have := ha e he
        simp only [decide_eq_true_eq]
        omega
      have h2 : l.filter (fun e => decide (e.row < i + 1)) = l.filter (fun e => e.row == i) := by
        apply List.filter_congr
        intro e he
        have h3 := ha e he
        by_cases he2 : e.row = i
        · rw [he2]
          rw [show (i == i) = true by simp, decide_eq_true_eq]
          omega
        · rw [show (e.row == i) = false by simp [he2]]
          simp only [decide_eq_false_iff_not]
          omega
      rw [h1, h2]
      simp
    · have hnil1 : (a :: l).filter (fun e => decide (e.row < i + 1)) = [] := by
        apply List.filter_eq_nil_iff.mpr
        intro e he
        rcases List.mem_cons.mp he with rfl | hel
        · simp only [decide_eq_true_eq]; omega
        · have := ha e hel
          simp only [decide_eq_true_eq]
          omega
      have hnil2 : (a :: l).filter (fun e => decide (e.row < i)) = [] := by
        apply List.filter_eq_nil_iff.mpr
        intro e he
        rcases List.mem_cons.mp he with rfl | hel
        · simp only [decide_eq_true_eq]; omega
        · have := ha e hel
          simp only [decide_eq_true_eq]
          omega
      have hnil3 : (a :: l).filter (fun e => e.row == i) = [] := by
        apply List.filter_eq_nil_iff.mpr
        intro e he
        rcases List.mem_cons.mp he with rfl | hel
        · simp only [beq_iff_eq]; omega
        · have := ha e hel
          simp only [beq_iff_eq]
          omega
      rw [hnil1, hnil2, hnil3]
      rfl

/-- takeWhile of an all-satisfying list is the whole list. -/
theorem takeWhile_eq_self_of_all {α : Type} (p : α → Bool) :
    ∀ (l : List α), (∀ e ∈ l, p e = true) → l.takeWhile p = l
  | [], _ => rfl
  | a :: l, h => by
    rw [List.takeWhile_cons_of_pos (h a (List.mem_cons_self a l))]
    rw [takeWhile_eq_self_of_all p l (fun e he => h e (List.mem_cons_of_mem a he))]

/-- takeWhile of an all-failing list is empty. -/
theorem takeWhile_eq_nil_of_all {α : Type} (p : α → Bool) :
    ∀ (l : List α), (∀ e ∈ l, p e = false) → l.takeWhile p = []
  | [], _ => rfl
  | a :: l, h => by
    rw [List.takeWhile_cons_of_neg]
    rw [h a (List.mem_cons_self a l)]
    simp

/-- When every row is at most `m`, filtering by `m ≤ row` is filtering by
`row == m`. -/
theorem filter_ge_eq_filter_beq {α : Type} (arr : List (Triple α)) (m : ℕ)
    (hub : ∀ e ∈ arr, e.row ≤ m) :
    arr.filter (fun e => decide (m ≤ e.row)) = arr.filter (fun e => e.row == m) := by
  apply List.filter_congr
  intro e he
  have := hub e he
  by_cases h : e.row = m
  · rw [h, show (m == m) = true by simp, decide_eq_true_eq]
  · rw [show (e.row == m) = false by simp [h]]
    simp only [decide_eq_false_iff_not]
    omega

/-- When every row is below `i`, filtering by `row < i` keeps everything. -/
theorem filter_lt_eq_self {α : Type} (arr : List (Triple α)) (i : ℕ)
    (h : ∀ e ∈ arr, e.row < i) :
    arr.filter (fun e => decide (e.row < i)) = arr := by
  apply List.filter_eq_self.mpr
  intro e he
  simp only [decide_eq_true_eq]
  exact h e he

/-- Filtering rows equal to `i` out of the rows at least `i` is the same as
filtering them out of the whole list. -/
theorem filter_beq_filter_ge {α : Type} (arr : List (Triple α)) (i : ℕ) :
    (arr.filter (fun e => decide (i ≤ e.row))).filter (fun e => e.row == i) =
      arr.filter (fun e => e.row == i) := by
  induction arr with
  | nil => rfl
  | cons a l ih =>
    by_cases h : a.row = i
    · rw [List.filter_cons_of_pos (by simp only [decide_eq_true_eq]; omega),
        List.filter_cons_of_pos (by simp [h]), List.filter_cons_of_pos (by simp [h]), ih]
    · by_cases h2 : i ≤ a.row
      · rw [List.filter_cons_of_pos (by simp [h2]), List.filter_cons_of_neg (by simp [h]),
          List.filter_cons_of_neg (by simp [h]), ih]
      · rw [List.filter_cons_of_neg (by simp [h2]), List.filter_cons_of_neg (by simp [h]), ih]

/-- The unfolding of the construction step when the inner loop breaks on a
later edge (an edge of a different row remains). -/
theorem fmtStep_eq_pos {α : Type} (arr : List (Triple α)) (i : ℕ) (s : FmtState)
    (h : ((arr.drop s.pe).takeWhile (fun e => e.row == i)).length < (arr.drop s.pe).length) :
    fmtStep arr i s =
      ⟨s.col ++ ((arr.drop s.pe).takeWhile (fun e => e.row == i)).map Triple.col,
        s.row ++ [s.rvc + ((arr.drop s.pe).takeWhile (fun e => e.row == i)).length],
        s.rvc + ((arr.drop s.pe).takeWhile (fun e => e.row == i)).length,
        s.pe + ((arr.drop s.pe).takeWhile (fun e => e.row == i)).length⟩ := by
  rw [fmtStep]
  simp only [if_pos h]

/-- The unfolding of the construction step when the inner loop runs off the
end of the edge array (no append to `row`, `processed_edges` not advanced). -/
theorem fmtStep_eq_neg {α : Type} (arr : List (Triple α)) (i : ℕ) (s : FmtState)
    (h : ¬ ((arr.drop s.pe).takeWhile (fun e => e.row == i)).length < (arr.drop s.pe).length) :
    fmtStep arr i s =
      ⟨s.col ++ ((arr.drop s.pe).takeWhile (fun e => e.row == i)).map Triple.col,
        s.row,
        s.rvc + ((arr.drop s.pe).takeWhile (fun e => e.row == i)).length,
        s.pe⟩ := by
  rw [fmtStep]
  simp only [if_neg h]

/-- One outer iteration on top of `fmtFold`. -/
theorem fmtFold_succ {α : Type} (arr : List (Triple α)) (i : ℕ) :
    fmtFold arr (i + 1) = fmtStep arr i (fmtFold arr i) := by
  rw [fmtFold, fmtFold, List.range_succ, List.foldl_append]
  rfl

/-- Invariant of the outer loop of `__csr_format` on a row-sorted edge array
whose maximal row value `m` is attained: after `i` iterations, `col` holds
the columns of the edges of rows below `i` (in order), `row_value_counter`
counts them, `processed_edges` counts the edges of rows below `min i m`, the
`row` list has one entry more than `i` until the iteration `i = m` does not
append (the inner loop runs off the array), and every `row` entry at
position `j` equals the number of edges of rows below `j`. -/
theorem fmtFold_spec {α : Type} (arr : List (Triple α)) (m : ℕ)
    (hs : arr.Pairwise (fun a b => a.row ≤ b.row))
    (hub : ∀ e ∈ arr, e.row ≤ m)
    (hatt : ∃ e ∈ arr, e.row = m) :
    ∀ i : ℕ,
      (fmtFold arr i).col = (arr.filter (fun e => decide (e.row < i))).map Triple.col ∧
      (fmtFold arr i).rvc = cntRow arr i ∧
      (fmtFold arr i).pe = cntRow arr (min i m) ∧
      (fmtFold arr i).row.length = (if m < i then i else i + 1) ∧
      (∀ j, j < (fmtFold arr i).row.length →
        (fmtFold arr i).row.get? j = some (cntRow arr j)) := by
  intro i
  induction i with
  | zero =>
    have hnil : arr.filter (fun e => decide (e.row < 0)) = [] :=
      List.filter_eq_nil_iff.mpr (by intro e _; simp)
    have hc0 : cntRow arr 0 = 0 := by rw [cntRow, hnil]; rfl
    refine ⟨?_, ?_, ?_, ?_, ?_⟩
    · rw [hnil]; rfl
    · rw [hc0]; rfl
    · rw [Nat.zero_min, hc0]; rfl
    · simp [fmtFold]
    · intro j hj
      have : j = 0 := by
        have : (fmtFold arr 0).row = [0] := rfl
        rw [this] at hj
        simp at hj
        exact hj
      rw [this, hc0]
      rfl
  | succ i ih =>
    obtain ⟨hcol, hrvc, hpe, hlen, hget⟩ := ih
    have hsum : cntRow arr i + (arr.filter (fun e => e.row == i)).length = cntRow arr (i + 1) := by
      have hl := congrArg List.length (sorted_filter_lt_succ arr i hs)
      rw [List.length_append] at hl
      simp only [cntRow]
      omega
    rcases Nat.lt_trichotomy i m with hcase | hcase | hcase
    · -- i < m : the inner loop breaks on a later edge and appends to row
      have hpe' : (fmtFold arr i).pe = cntRow arr i := by
        rw [hpe, min_eq_left (le_of_lt hcase)]
      have hrest : arr.drop (fmtFold arr i).pe = arr.filter (fun e => decide (i ≤ e.row)) := by
        rw [hpe', sorted_drop_cnt arr i hs]
      have hrsort : (arr.filter (fun e => decide (i ≤ e.row))).Pairwise
          (fun a b => a.row ≤ b.row) :=
        List.Pairwise.sublist (List.filter_sublist _) hs
      have hms : (arr.drop (fmtFold arr i).pe).takeWhile (fun e => e.row == i) =
          arr.filter (fun e => e.row == i) := by
        rw [hrest, sorted_takeWhile_eq_filter _ i hrsort (fun e he => by
          have := List.mem_filter.mp he
          simpa using this.2)]
        exact filter_beq_filter_ge arr i
      obtain ⟨em, hem, hemr⟩ := hatt
      have hemrest : em ∈ arr.drop (fmtFold arr i).pe := by
        rw [hrest]
        exact List.mem_filter.mpr ⟨hem, by simp only [decide_eq_true_eq]; omega⟩
      have hlt : ((arr.drop (fmtFold arr i).pe).takeWhile (fun e => e.row == i)).length <
          (arr.drop (fmtFold arr i).pe).length := by
        have hsplit : (arr.drop (fmtFold arr i).pe).takeWhile (fun e => e.row == i) ++
            (arr.drop (fmtFold arr i).pe).dropWhile (fun e => e.row == i) =
              arr.drop (fmtFold arr i).pe :=
          List.takeWhile_append_dropWhile _ _
        have hlensplit := congrArg List.length hsplit
        rw [List.length_append] at hlensplit
        by_contra hge2
        have hdw : ((arr.drop (fmtFold arr i).pe).dropWhile (fun e => e.row == i)).length = 0 := by
          omega
        rw [List.length_eq_zero] at hdw
        rw [hdw, List.append_nil] at hsplit
        rw [← hsplit, hms] at hemrest
        have := (List.mem_filter.mp hemrest).2
        rw [beq_iff_eq] at this
        omega
      rw [fmtFold_succ, fmtStep_eq_pos arr i _ hlt, hms]
      refine ⟨?_, ?_, ?_, ?_, ?_⟩
      · show (fmtFold arr i).col ++ (arr.filter (fun e => e.row == i)).map Triple.col = _
        rw [hcol, sorted_filter_lt_succ arr i hs, List.map_append]
      · show (fmtFold arr i).rvc + (arr.filter (fun e => e.row == i)).length = _
        rw [hrvc]
        exact hsum
      · show (fmtFold arr i).pe + (arr.filter (fun e => e.row == i)).length = _
        rw [hpe', min_eq_left (by omega : i + 1 ≤ m)]
        exact hsum
      · show ((fmtFold arr i).row ++ [_]).length = _
        rw [List.length_append, hlen]
        rw [if_neg (by omega : ¬ m < i), if_neg (by omega : ¬ m < i + 1)]
        rfl
      · intro j hj
        show ((fmtFold arr i).row ++ [_]).get? j = _
        rw [List.length_append] at hj
        by_cases hjlt : j < (fmtFold arr i).row.length
        · rw [List.get?_append hjlt]
          exact hget j hjlt
        · have hje : j = (fmtFold arr i).row.length := by
            simp only [List.length_singleton] at hj
            omega
          rw [hje, List.get?_concat_length]
          have hrl : (fmtFold arr i).row.length = i + 1 := by
            rw [hlen, if_neg (by omega : ¬ m < i)]
          rw [hrvc, hrl]
          exact congrArg some hsum
    · -- i = m : the inner loop consumes the tail, nothing appended to row
      subst hcase
      have hpe' : (fmtFold arr i).pe = cntRow arr i := by
        rw [hpe, min_self]
      have hrest : arr.drop (fmtFold arr i).pe = arr.filter (fun e => e.row == i) := by
        rw [hpe', sorted_drop_cnt arr i hs, filter_ge_eq_filter_beq arr i hub]
      have hms : (arr.drop (fmtFold arr i).pe).takeWhile (fun e => e.row == i) =
          arr.filter (fun e => e.row == i) := by
        rw [hrest]
        exact takeWhile_eq_self_of_all _ _ (fun e he => (List.mem_filter.mp he).2)
      have hnotlt : ¬ ((arr.drop (fmtFold arr i).pe).takeWhile (fun e => e.row == i)).length <
          (arr.drop (fmtFold arr i).pe).length := by
        rw [hms, hrest]
        omega
      rw [fmtFold_succ, fmtStep_eq_neg arr i _ hnotlt, hms]
      refine ⟨?_, ?_, ?_, ?_, ?_⟩
      · show (fmtFold arr i).col ++ (arr.filter (fun e => e.row == i)).map Triple.col = _
        rw [hcol, sorted_filter_lt_succ arr i hs, List.map_append]
      · show (fmtFold arr i).rvc + (arr.filter (fun e => e.row == i)).length = _
        rw [hrvc]
        exact hsum
      · show (fmtFold arr i).pe = _
        rw [hpe', min_eq_right (by omega : i ≤ i + 1)]
      · show (fmtFold arr i).row.length = _
        rw [hlen, if_neg (by omega : ¬ i < i), if_pos (by omega : i < i + 1)]
      · intro j hj
        exact hget j hj
    · -- m < i : every remaining iteration appends the final counter to row
      have hpe' : (fmtFold arr i).pe = cntRow arr m := by
        rw [hpe, min_eq_right (by omega : m ≤ i)]
      have hrest : arr.drop (fmtFold arr i).pe = arr.filter (fun e => e.row == m) := by
        rw [hpe', sorted_drop_cnt arr m hs, filter_ge_eq_filter_beq arr m hub]
      have hms : (arr.drop (fmtFold arr i).pe).takeWhile (fun e => e.row == i) = [] := by
        rw [hrest]
        apply takeWhile_eq_nil_of_all
        intro e he
        have := (List.mem_filter.mp he).2
        rw [beq_iff_eq] at this
        simp only [beq_eq_false_iff_ne, ne_eq]
        omega
      obtain ⟨em, hem, hemr⟩ := hatt
      have hemrest : em ∈ arr.drop (fmtFold arr i).pe := by
        rw [hrest]
        exact List.mem_filter.mpr ⟨hem, by simp [hemr]⟩
      have hlt : ((arr.drop (fmtFold arr i).pe).takeWhile (fun e => e.row == i)).length <
          (arr.drop (fmtFold arr i).pe).length := by
        rw [hms]
        simp only [List.length_nil]
        exact List.length_pos.mpr (List.ne_nil_of_mem hemrest)
      have hallm : ∀ e ∈ arr, e.row < i := fun e he => by
        have := hub e he
        omega
      have hcnti : cntRow arr i = arr.length := by
        rw [cntRow, filter_lt_eq_self arr i hallm]
      have hcntsucc : cntRow arr (i + 1) = arr.length := by
        rw [cntRow, filter_lt_eq_self arr (i + 1) (fun e he => by
          have := hallm e he
          omega)]
      rw [fmtFold_succ, fmtStep_eq_pos arr i _ hlt, hms]
      refine ⟨?_, ?_, ?_, ?_, ?_⟩
      · show (fmtFold arr i).col ++ ([] : List (Triple α)).map Triple.col = _
        rw [List.map_nil, List.append_nil, hcol, filter_lt_eq_self arr i hallm,
          filter_lt_eq_self arr (i + 1) (fun e he => by
            have := hallm e he
            omega)]
      · show (fmtFold arr i).rvc + ([] : List (Triple α)).length = _
        rw [List.length_nil, Nat.add_zero, hrvc, hcnti, hcntsucc]
      · show (fmtFold arr i).pe + ([] : List (Triple α)).length = _
        rw [List.length_nil, Nat.add_zero, hpe', min_eq_right (by omega : m ≤ i + 1)]
      · show ((fmtFold arr i).row ++ [_]).length = _
        rw [List.length_append, hlen, if_pos hcase, if_pos (by omega : m < i + 1)]
        rfl
      · intro j hj
        show ((fmtFold arr i).row ++ [_]).get? j = _
        rw [List.length_append] at hj
        by_cases hjlt : j < (fmtFold arr i).row.length
        · rw [List.get?_append hjlt]
          exact hget j hjlt
        · have hje : j = (fmtFold arr i).row.length := by
            simp only [List.length_singleton] at hj
            omega
          rw [hje, List.get?_concat_length]
          have hrl : (fmtFold arr i).row.length = i := by
            rw [hlen, if_pos hcase]
          rw [List.length_nil, Nat.add_zero, hrvc, hrl]

/-- Reading inside a replicate list. -/
theorem replicate_get? {α : Type} (a : α) : ∀ (n j : ℕ), j < n →
    (List.replicate n a).get? j = some a
  | n + 1, 0, _ => rfl
  | n + 1, j + 1, h => replicate_get? a n j (by omega)

/-- C9: for every CSR structure built by `csr_prep` and every row index
`r < shape.1`, both accessors succeed (the two reads of `row_index` at `r`
and `r + 1` are in bounds, and the slice itself cannot fault), and a row
that holds no input entry reads back as the empty slice.  This covers both
the regular construction path (where `row_index` has `shape.1 + 1` entries,
entry `j` counting the entries of rows below `j`) and the sentinel path
taken for a length-1 input (where `row_index` is all zeros). -/
theorem get_row_get_nnz_safe {α : Type} (arr : List (Triple α)) (shape : ℕ × ℕ)
    (r : ℕ) (vals : List α) (cols rows : List ℕ)
    (h : csr_prep arr shape true = Except.ok (vals, cols, rows))
    (hr : r < shape.1) :
    ∃ cl vl, CSRMatrix.get_nnz? ⟨vals, cols, rows⟩ r = some cl ∧
      CSRMatrix.get_row? ⟨vals, cols, rows⟩ r = some vl ∧
      ((∀ e ∈ arr, e.row ≠ r) → cl = [] ∧ vl = []) := by
  by_cases hne : arr.isEmpty = true
  · rw [csr_prep, if_pos hne] at h
    exact absurd h (by simp)
  by_cases hbnd : shape.2 - 1 < maxColIdx arr ∨ shape.1 - 1 < maxRowIdx arr
  · rw [csr_prep, if_neg hne, if_pos hbnd] at h
    exact absurd h (by simp)
  rw [csr_prep, if_neg hne, if_neg hbnd] at h
  simp only [if_true, Except.ok.injEq, Prod.mk.injEq] at h
  obtain ⟨hv, hc, hrw⟩ := h
  have harrne : arr ≠ [] := by
    intro hcontra
    rw [hcontra] at hne
    exact hne rfl
  by_cases hone : (csr_sort arr).length = 1
  · -- sentinel path of __csr_format: all-zero row index, empty columns
    rw [csr_format, if_pos (by simp [hone])] at hc hrw
    have hget0 : ∀ j, j ≤ shape.1 + 1 →
        ((0 : ℕ) :: List.replicate (shape.1 + 1) 0).get? j = some 0 := by
      intro j hj
      cases j with
      | zero => rfl
      | succ j =>
        show (List.replicate (shape.1 + 1) (0 : ℕ)).get? j = some 0
        exact replicate_get? 0 (shape.1 + 1) j (by omega)
    refine ⟨[], [], ?_, ?_, fun _ => ⟨rfl, rfl⟩⟩
    · rw [CSRMatrix.get_nnz?]
      rw [← hrw]
      simp only [hget0 r (by omega), hget0 (r + 1) (by omega), Option.bind_some]
      rw [← hc]
      rfl
    · rw [CSRMatrix.get_row?]
      rw [← hrw]
      simp only [hget0 r (by omega), hget0 (r + 1) (by omega), Option.bind_some]
      show some (pySlice vals 0 0) = some []
      rw [pySlice_self]
  · -- regular path: use the fold invariant
    have hperm : List.Perm (csr_sort arr) arr := List.perm_insertionSort tripleLE arr
    have hsne : csr_sort arr ≠ [] := by
      intro hcontra
      have := hperm.length_eq
      rw [hcontra] at this
      cases arr with
      | nil => exact harrne rfl
      | cons a l => simp at this
    have hs2 : (csr_sort arr).Pairwise (fun a b => a.row ≤ b.row) := by
      apply List.Pairwise.imp ?_ (List.sorted_insertionSort tripleLE arr)
      intro a b hab
      rcases hab with hlt | ⟨heq, _⟩
      · omega
      · omega
    have hmlt : maxRowIdx arr < shape.1 := by
      push_neg at hbnd
      omega
    have hub : ∀ e ∈ csr_sort arr, e.row ≤ maxRowIdx arr := fun e he =>
      row_le_maxRowIdx (hperm.mem_iff.mp he)
    have hatt : ∃ e ∈ csr_sort arr, e.row = maxRowIdx arr := by
      obtain ⟨e, he, her⟩ := maxRowIdx_attained harrne
      exact ⟨e, hperm.mem_iff.mpr he, her⟩
    obtain ⟨hcol, _, _, hlen, hget⟩ :=
      fmtFold_spec (csr_sort arr) (maxRowIdx arr) hs2 hub hatt (shape.1 + 1)
    rw [csr_format, if_neg (by simp [hone])] at hc hrw
    have hrowlen : (fmtFold (csr_sort arr) (shape.1 + 1)).row.length = shape.1 + 1 := by
      rw [hlen, if_pos (by omega)]
    have h1 : rows.get? r = some (cntRow (csr_sort arr) r) := by
      rw [← hrw]
      exact hget r (by omega)
    have h2 : rows.get? (r + 1) = some (cntRow (csr_sort arr) (r + 1)) := by
      rw [← hrw]
      exact hget (r + 1) (by omega)
    refine ⟨pySlice cols (cntRow (csr_sort arr) r) (cntRow (csr_sort arr) (r + 1)),
      pySlice vals (cntRow (csr_sort arr) r) (cntRow (csr_sort arr) (r + 1)), ?_, ?_, ?_⟩
    · rw [CSRMatrix.get_nnz?]
      simp only [h1, h2, Option.bind_some]
      rfl
    · rw [CSRMatrix.get_row?]
      simp only [h1, h2, Option.bind_some]
      rfl
    · intro hnone
      have hfilnil : (csr_sort arr).filter (fun e => e.row == r) = [] := by
        have hfa : arr.filter (fun e => e.row == r) = [] := by
          apply List.filter_eq_nil_iff.mpr
          intro e he
          simp only [beq_iff_eq]
          exact hnone e he
        have := hperm.filter (fun e => e.row == r)
        rw [hfa] at this
        exact List.Perm.eq_nil this
      have hceq : cntRow (csr_sort arr) (r + 1) = cntRow (csr_sort arr) r := by
        have hl := congrArg List.length (sorted_filter_lt_succ (csr_sort arr) r hs2)
        rw [List.length_append, hfilnil] at hl
        simp only [cntRow] at hl ⊢
        simp at hl
        omega
      rw [hceq, pySlice_self, pySlice_self]
      exact ⟨rfl, rfl⟩

/-- Witness for C9 at the triple list `[(0,0,5), (2,1,7)]`, shape `(3,2)`
and the empty row `r = 1`. -/
theorem get_row_get_nnz_safe_witness :
    (csr_prep [⟨0, 0, (5 : ℚ)⟩, ⟨2, 1, 7⟩] (3, 2) true =
        Except.ok ([5, 7], [0, 1], [0, 1, 1, 2])) ∧
    (1 < 3) ∧
    (∃ cl vl, CSRMatrix.get_nnz? ⟨[(5 : ℚ), 7], [0, 1], [0, 1, 1, 2]⟩ 1 = some cl ∧
      CSRMatrix.get_row? ⟨[(5 : ℚ), 7], [0, 1], [0, 1, 1, 2]⟩ 1 = some vl ∧
      ((∀ e ∈ [(⟨0, 0, (5 : ℚ)⟩ : Triple ℚ), ⟨2, 1, 7⟩], e.row ≠ 1) → cl = [] ∧ vl = [])) :=
  ⟨rfl, by omega,
    get_row_get_nnz_safe [⟨0, 0, (5 : ℚ)⟩, ⟨2, 1, 7⟩] (3, 2) 1 [5, 7] [0, 1] [0, 1, 1, 2]
      rfl (by omega)⟩

end Dyntapy
